import Mathlib

/-!
Verification of the firm-model engine (src/firm-model/src/App.jsx).

The computational core of the repository is shallowly embedded below.
JavaScript numbers are modelled as exact rationals (ℚ); all parameter and
grid values involved are finite, so `Number.isFinite` guards in the source
are always true in the model, and the JavaScript `NaN` produced by the
explicit `Q === 0` branches of `AC`/`AP` is modelled as `Option ℚ` with
`none` standing for NaN.  The `-Infinity` initial accumulator of the
max-profit scan is modelled as `none` in an `Option ℚ` state (any finite
profit compares strictly greater than it, exactly as in the source).
Loop counters that the source advances by `Q += step` are exact here, so
the `1e-9` epsilon in the loop bound is kept but never load-bearing, and
`Number(Q.toFixed(d))` rounding is the identity on the grid points; both
are still modelled faithfully.
-/

/-- The five model parameters (FC, a, b, c, p) of the engine. -/
structure Params where
  FC : ℚ
  a : ℚ
  b : ℚ
  c : ℚ
  p : ℚ
deriving DecidableEq

/-- One evaluated point of the model: the quantity `Q` and the nine
dependent values.  `AC` and `AP` are `none` (NaN) at `Q = 0`. -/
structure Sample where
  Q : ℚ
  TR : ℚ
  AR : ℚ
  MR : ℚ
  TC : ℚ
  AC : Option ℚ
  MC : ℚ
  TP : ℚ
  AP : Option ℚ
  MP : ℚ
deriving DecidableEq

/-- `Number(x.toFixed(d))`: round to `d` decimal digits (half-up; on the
nonnegative exact grid values that occur it coincides with JavaScript). -/
def roundTo (d : Nat) (x : ℚ) : ℚ := ((Rat.floor (x * 10 ^ d + 1 / 2) : ℚ)) / 10 ^ d

/-- The closed-form evaluation of one sample, exactly the body of the
sampling loop in `data` (App.jsx lines 56-75), at the unrounded `Q`. -/
def evaluate (P : Params) (Q : ℚ) : Sample :=
  let TR := P.p * Q
  let AR := if Q = 0 then P.p else TR / Q
  let MR := P.p
  let TC := P.FC + P.a * Q - P.b * Q * Q + P.c * Q * Q * Q
  let AC : Option ℚ := if Q = 0 then none else some (TC / Q)
  let MC := P.a - 2 * P.b * Q + 3 * P.c * Q * Q
  let TP := TR - TC
  let AP : Option ℚ := if Q = 0 then none else some (TP / Q)
  let MP := MR - MC
  { Q := Q, TR := TR, AR := AR, MR := MR, TC := TC, AC := AC, MC := MC,
    TP := TP, AP := AP, MP := MP }

/-- The loop `for (let Q = start; Q <= Qmax + 1e-9; Q += step)`, collecting
the visited `Q` values.  `fuel` is any bound larger than the number of
iterations (the instantiations below give it slack; the loop stops by its
own condition first). -/
def gridLoop (step Qmax : ℚ) : Nat → ℚ → List ℚ
  | 0, _ => []
  | fuel + 1, Q =>
    if Q ≤ Qmax + 1 / 1000000000 then Q :: gridLoop step Qmax fuel (Q + step)
    else []

/-- `sample`: the `data` memo of App.jsx with the fixed domain Qmax = 10,
step = 0.1.  The stored `Q` is rounded to 3 digits; the nine dependent
fields are computed from the unrounded loop variable. -/
def sample (P : Params) : List Sample :=
  (gridLoop (1 / 10) 10 200 0).map fun q => { evaluate P q with Q := roundTo 3 q }

/-- `tpAt` of App.jsx lines 99-103: total profit at `Q` recomputed directly
from the parameters. -/
def tpAt (P : Params) (Q : ℚ) : ℚ :=
  P.p * Q - (P.FC + P.a * Q - P.b * Q * Q + P.c * Q * Q * Q)

/-- The 30-iteration bisection refinement (App.jsx lines 121-133): state is
the bracket `(lo, hi)` together with the scan's `prevTP` variable, which the
source mutates to the midpoint value whenever the midpoint keeps the sign of
`prevTP`.  Returns the final bracket. -/
def bisect (P : Params) : Nat → ℚ → ℚ → ℚ → ℚ × ℚ
  | 0, lo, hi, _ => (lo, hi)
  | k + 1, lo, hi, prevTP =>
    let mid := (lo + hi) / 2
    let midTP := tpAt P mid
    if prevTP * midTP ≤ 0 then bisect P k lo mid prevTP
    else bisect P k mid hi midTP

/-- The fine root-scan grid: `Q = 0.01, 0.02, …` while `Q ≤ 10 + 1e-9`. -/
def scanGrid : List ℚ := gridLoop (1 / 100) 10 2000 (1 / 100)

/-- The body of the root-scan loop (App.jsx lines 104-137), threading
`prevQ`, `prevTP` and the accumulated `roots` list.  The source's
`Number.isFinite` guard is always true over ℚ and so does not appear. -/
def rootScanGo (P : Params) : List ℚ → ℚ → ℚ → List ℚ → List ℚ
  | [], _, _, acc => acc
  | q :: qs, prevQ, prevTP, acc =>
    let currQ := roundTo 4 q
    let currTP := tpAt P currQ
    let acc2 :=
      if prevTP = 0 then acc ++ [prevQ]
      else if currTP = 0 then acc ++ [currQ]
      else if prevTP * currTP < 0 then
        let pr := bisect P 30 prevQ currQ prevTP
        acc ++ [(pr.1 + pr.2) / 2]
      else acc
    rootScanGo P qs currQ currTP acc2

/-- All roots found by the fine scan, in scan order. -/
def roots (P : Params) : List ℚ := rootScanGo P scanGrid 0 (tpAt P 0) []

/-- Insertion into an ascending list (used to model `sort((x,y) => x-y)`). -/
def insertAsc (x : ℚ) : List ℚ → List ℚ
  | [] => [x]
  | y :: ys => if x ≤ y then x :: y :: ys else y :: insertAsc x ys

/-- Ascending sort, modelling `roots.sort((x, y) => x - y)`. -/
def sortList : List ℚ → List ℚ
  | [] => []
  | x :: xs => insertAsc x (sortList xs)

/-- Tail of the dedup filter: each element is compared with its predecessor
in the sorted array (the predecessor advances even when dropped, exactly as
`arr[idx - 1]` does in the source's `filter`). -/
def dedupGo : ℚ → List ℚ → List ℚ
  | _, [] => []
  | prev, y :: ys => if |y - prev| > 1 / 1000 then y :: dedupGo y ys else dedupGo y ys

/-- `filter((x, idx, arr) => idx === 0 || Math.abs(x - arr[idx-1]) > 1e-3)`. -/
def dedupFilter : List ℚ → List ℚ
  | [] => []
  | x :: xs => x :: dedupGo x xs

/-- `uniqueRoots` of App.jsx lines 139-141: sorted, deduplicated roots. -/
def uniqueRoots (P : Params) : List ℚ := dedupFilter (sortList (roots P))

/-- State of the max-profit scan: `maxTP = none` models the `-Infinity`
initial value. -/
structure MaxSt where
  Qstar : ℚ
  maxTP : Option ℚ
deriving DecidableEq

/-- One step of the max-profit scan: update exactly when `row.TP > maxTP`
(any finite value beats `-Infinity`). -/
def maxStep (s : MaxSt) (row : Sample) : MaxSt :=
  match s.maxTP with
  | none => { Qstar := row.Q, maxTP := some row.TP }
  | some m => if m < row.TP then { Qstar := row.Q, maxTP := some row.TP } else s

/-- The `for (const row of data)` scan of App.jsx lines 89-95. -/
def maxScan : List Sample → MaxSt → MaxSt
  | [], s => s
  | row :: rest, s => maxScan rest (maxStep s row)

/-- The derived markers; `none` models the source's `null` for
break-even / profit-limit and `-Infinity` for `maxTP` on empty data. -/
structure Markers where
  Qstar : ℚ
  maxTP : Option ℚ
  breakEven : Option ℚ
  profitLimit : Option ℚ
deriving DecidableEq

/-- `findMarkers`: the `markers` memo of App.jsx lines 87-166. -/
def findMarkers (P : Params) (data : List Sample) : Markers :=
  let st := maxScan data { Qstar := 0, maxTP := none }
  let u := uniqueRoots P
  let breakEven : Option ℚ := u.head?
  let profitLimit : Option ℚ :=
    match u with
    | r0 :: r1 :: _ => if 1 ≤ r1 - r0 then some r1 else none
    | _ => none
  { Qstar := st.Qstar, maxTP := st.maxTP, breakEven := breakEven,
    profitLimit := profitLimit }

/-- The reference default parameters FC=5, a=5, b=1, c=0.1, p=5. -/
def refParams : Params := { FC := 5, a := 5, b := 1, c := 1 / 10, p := 5 }

/-- The defaults with FC = 0 (the spec's boundary case). -/
def fcZeroParams : Params := { FC := 0, a := 5, b := 1, c := 1 / 10, p := 5 }

/-- Parameters with no root at all: TP ≡ -5. -/
def noRootParams : Params := { FC := 5, a := 0, b := 0, c := 0, p := 0 }

set_option maxRecDepth 100000

/-- Boolean checker: every element of `l` is its predecessor plus `step`,
starting from `x`. -/
def chainStepB (step : ℚ) : ℚ → List ℚ → Bool
  | _, [] => true
  | x, y :: ys => decide (y = x + step) && chainStepB step y ys

/-- Boolean checker for a list spaced by `step` throughout. -/
def chainB (step : ℚ) : List ℚ → Bool
  | [] => true
  | x :: xs => chainStepB step x xs

theorem chainStepB_sound (step : ℚ) :
    ∀ (l : List ℚ) (x : ℚ), chainStepB step x l = true →
      List.Chain (fun a b => b = a + step) x l := by
  intro l
  induction l with
  | nil => intro x _; exact List.Chain.nil
  | cons y ys ih =>
    intro x h
    simp only [chainStepB, Bool.and_eq_true, decide_eq_true_eq] at h
    exact List.Chain.cons h.1 (ih y h.2)

theorem chainB_sound (step : ℚ) (l : List ℚ) (h : chainB step l = true) :
    List.Chain' (fun a b => b = a + step) l := by
  cases l with
  | nil => trivial
  | cons x xs => exact chainStepB_sound step xs x h

/-- C1: the spec says break-even is the first quantity strictly greater than
0 where profit crosses from negative to positive, and that with FC = 0 the
engine does not record Q = 0 itself as a root.  The code contradicts this
(and its own comment "break-even = first root after 0"): with FC = 0 the
scan starts with prevTP = TP(0) = 0, the `prevTP === 0` branch pushes
prevQ = 0 as a root, and breakEven is reported as 0. -/
theorem fcZero_breakEven_is_zero :
    tpAt fcZeroParams 0 = 0 ∧
    (findMarkers fcZeroParams (sample fcZeroParams)).breakEven = some 0 := by
  decide!

/-- C2: the sampled Q values start at exactly 0, are spaced by the display
step 1/10 (hence strictly increasing and gapless), and the last value is
Qmax = 10 itself (so it is ≤ Qmax, within one step of Qmax, and Qmax is
included, the step dividing Qmax evenly). -/
theorem sample_grid_properties (P : Params) :
    ((sample P).map Sample.Q).head? = some 0 ∧
    List.Chain' (fun x y => y = x + 1 / 10) ((sample P).map Sample.Q) ∧
    List.Chain' (· < ·) ((sample P).map Sample.Q) ∧
    ((sample P).map Sample.Q).getLast? = some 10 := by
  have h1 : (sample P).map Sample.Q =
      (gridLoop (1 / 10) 10 200 0).map (fun q => roundTo 3 q) := by
    simp only [sample, List.map_map]
    rfl
  rw [h1]
  have hb : chainB (1 / 10) ((gridLoop (1 / 10) 10 200 0).map (fun q => roundTo 3 q)) = true := by
    decide!
  have hchain := chainB_sound (1 / 10) _ hb
  refine ⟨by decide!, hchain, ?_, by decide!⟩
  exact hchain.imp fun a b hab => by rw [hab]; linarith

/-- C6: the average revenue of every evaluated sample is exactly the
price p, for every quantity Q ≥ 0 including Q = 0. -/
theorem evaluate_AR_eq_price (P : Params) (Q : ℚ) (h : 0 ≤ Q) :
    (evaluate P Q).AR = P.p := by
  by_cases hQ : Q = 0
  · simp [evaluate, hQ]
  · simp only [evaluate, if_neg hQ]
    exact mul_div_cancel_right₀ P.p hQ

/-- Witness for C6 at the reference parameters and Q = 2. -/
theorem evaluate_AR_eq_price_witness :
    (0 : ℚ) ≤ 2 ∧ (evaluate refParams 2).AR = refParams.p :=
  ⟨by norm_num, evaluate_AR_eq_price refParams 2 (by norm_num)⟩

/-- C7: at Q = 0 the average cost and average profit are the explicit
undefined value (`none`, modelling NaN), produced by the explicit `Q === 0`
branch rather than an error; for every Q > 0, AC = TC/Q and AP = TP/Q. -/
theorem evaluate_AC_AP_division (P : Params) :
    (evaluate P 0).AC = none ∧ (evaluate P 0).AP = none ∧
    ∀ Q : ℚ, 0 < Q →
      (evaluate P Q).AC = some ((evaluate P Q).TC / Q) ∧
      (evaluate P Q).AP = some ((evaluate P Q).TP / Q) := by
  refine ⟨by simp [evaluate], by simp [evaluate], fun Q hQ => ?_⟩
  constructor <;> simp [evaluate, hQ.ne']

/-- Witness for C7 at the reference parameters and Q = 2. -/
theorem evaluate_AC_AP_division_witness :
    (0 : ℚ) < 2 ∧
    ((evaluate refParams 2).AC = some ((evaluate refParams 2).TC / 2) ∧
      (evaluate refParams 2).AP = some ((evaluate refParams 2).TP / 2)) :=
  ⟨by norm_num, (evaluate_AC_AP_division refParams).2.2 2 (by norm_num)⟩

/-- C9: breakEven and profitLimit are computed by the independent fine
re-scan from the parameters alone, so they are identical for any two Series
arguments; only Qstar and maxTP read the Series. -/
theorem breakEven_profitLimit_series_independent (P : Params) (d1 d2 : List Sample) :
    (findMarkers P d1).breakEven = (findMarkers P d2).breakEven ∧
    (findMarkers P d1).profitLimit = (findMarkers P d2).profitLimit :=
  ⟨rfl, rfl⟩

/-- Characterization of the max-profit scan from a finite state `(q, m)`:
either no element beats `m` and the state is returned unchanged, or the
result is the first element strictly beating `m` that is maximal overall. -/
theorem maxScan_go_spec (l : List Sample) : ∀ (q m : ℚ),
    (maxScan l ⟨q, some m⟩ = ⟨q, some m⟩ ∧ ∀ x ∈ l, x.TP ≤ m) ∨
    (∃ pre best post, l = pre ++ best :: post ∧
      maxScan l ⟨q, some m⟩ = ⟨best.Q, some best.TP⟩ ∧
      m < best.TP ∧ (∀ x ∈ l, x.TP ≤ best.TP) ∧ (∀ x ∈ pre, x.TP < best.TP)) := by
  induction l with
  | nil => intro q m; left; exact ⟨rfl, by simp⟩
  | cons row rest ih =>
    intro q m
    by_cases hm : m < row.TP
    · have hstep : maxScan (row :: rest) ⟨q, some m⟩ = maxScan rest ⟨row.Q, some row.TP⟩ := by
        show maxScan rest (maxStep ⟨q, some m⟩ row) = _
        simp [maxStep, hm]
      rcases ih row.Q row.TP with ⟨heq, hall⟩ | ⟨pre, best, post, hsplit, heq, hlt, hall, hpre⟩
      · right
        refine ⟨[], row, rest, by simp, by rw [hstep, heq], hm, ?_, by simp⟩
        intro x hx
        rcases List.mem_cons.mp hx with rfl | hx
        · exact le_refl _
        · exact hall x hx
      · right
        refine ⟨row :: pre, best, post, by rw [hsplit, List.cons_append], by rw [hstep, heq],
          lt_trans hm hlt, ?_, ?_⟩
        · intro x hx
          rcases List.mem_cons.mp hx with rfl | hx
          · exact le_of_lt hlt
          · exact hall x hx
        · intro x hx
          rcases List.mem_cons.mp hx with rfl | hx
          · exact hlt
          · exact hpre x hx
    · have hstep : maxScan (row :: rest) ⟨q, some m⟩ = maxScan rest ⟨q, some m⟩ := by
        show maxScan rest (maxStep ⟨q, some m⟩ row) = _
        simp [maxStep, hm]
      rcases ih q m with ⟨heq, hall⟩ | ⟨pre, best, post, hsplit, heq, hlt, hall, hpre⟩
      · left
        refine ⟨by rw [hstep, heq], ?_⟩
        intro x hx
        rcases List.mem_cons.mp hx with rfl | hx
        · exact le_of_not_lt hm
        · exact hall x hx
      · right
        refine ⟨row :: pre, best, post, by rw [hsplit, List.cons_append], by rw [hstep, heq],
          hlt, ?_, ?_⟩
        · intro x hx
          rcases List.mem_cons.mp hx with rfl | hx
          · exact le_of_lt (lt_of_le_of_lt (le_of_not_lt hm) hlt)
          · exact hall x hx
        · intro x hx
          rcases List.mem_cons.mp hx with rfl | hx
          · exact lt_of_le_of_lt (le_of_not_lt hm) hlt
          · exact hpre x hx

/-- The scan from the `-Infinity` initial state on nonempty data always
lands on the first maximal element. -/
theorem maxScan_fromNone_spec (row : Sample) (rest : List Sample) :
    ∃ pre best post, row :: rest = pre ++ best :: post ∧
      maxScan (row :: rest) ⟨0, none⟩ = ⟨best.Q, some best.TP⟩ ∧
      (∀ x ∈ row :: rest, x.TP ≤ best.TP) ∧
      (∀ x ∈ pre, x.TP < best.TP) := by
  have hstep : maxScan (row :: rest) ⟨0, none⟩ = maxScan rest ⟨row.Q, some row.TP⟩ := rfl
  rcases maxScan_go_spec rest row.Q row.TP with ⟨heq, hall⟩ |
    ⟨pre, best, post, hsplit, heq, hlt, hall, hpre⟩
  · refine ⟨[], row, rest, by simp, by rw [hstep, heq], ?_, by simp⟩
    intro x hx
    rcases List.mem_cons.mp hx with rfl | hx
    · exact le_refl _
    · exact hall x hx
  · refine ⟨row :: pre, best, post, by rw [hsplit, List.cons_append], by rw [hstep, heq], ?_, ?_⟩
    · intro x hx
      rcases List.mem_cons.mp hx with rfl | hx
      · exact le_of_lt hlt
      · exact hall x hx
    · intro x hx
      rcases List.mem_cons.mp hx with rfl | hx
      · exact hlt
      · exact hpre x hx

/-- Repackaging of `maxScan_fromNone_spec` through `findMarkers` (shared
by the Qstar/maxTP claim and the invariants claim). -/
theorem findMarkers_first_argmax (P : Params) (data : List Sample) (h : data ≠ []) :
    ∃ pre best post, data = pre ++ best :: post ∧
      (findMarkers P data).maxTP = some best.TP ∧
      (findMarkers P data).Qstar = best.Q ∧
      (∀ x ∈ data, x.TP ≤ best.TP) ∧
      (∀ x ∈ pre, x.TP < best.TP) := by
  cases data with
  | nil => exact absurd rfl h
  | cons row rest =>
    obtain ⟨pre, best, post, hsplit, heq, hall, hpre⟩ := maxScan_fromNone_spec row rest
    refine ⟨pre, best, post, hsplit, ?_, ?_, hall, hpre⟩
    · show (maxScan (row :: rest) ⟨0, none⟩).maxTP = some best.TP
      rw [heq]
    · show (maxScan (row :: rest) ⟨0, none⟩).Qstar = best.Q
      rw [heq]

/-- C4: on any nonempty Series, the single scan yields maxTP equal to the
maximum TP over the Series and Qstar equal to the Q of the first sample
attaining it: every sample's TP is at most best.TP, and every sample
strictly before the chosen one has strictly smaller TP (so a later sample
with equal or lower TP never replaces it). -/
theorem findMarkers_qstar_maxTP (P : Params) (data : List Sample) (h : data ≠ []) :
    ∃ pre best post, data = pre ++ best :: post ∧
      (findMarkers P data).maxTP = some best.TP ∧
      (findMarkers P data).Qstar = best.Q ∧
      (∀ x ∈ data, x.TP ≤ best.TP) ∧
      (∀ x ∈ pre, x.TP < best.TP) :=
  findMarkers_first_argmax P data h

/-- Witness for C4 on the reference Series. -/
theorem findMarkers_qstar_maxTP_witness :
    sample refParams ≠ [] ∧
    ∃ pre best post, sample refParams = pre ++ best :: post ∧
      (findMarkers refParams (sample refParams)).maxTP = some best.TP ∧
      (findMarkers refParams (sample refParams)).Qstar = best.Q ∧
      (∀ x ∈ sample refParams, x.TP ≤ best.TP) ∧
      (∀ x ∈ pre, x.TP < best.TP) :=
  ⟨by decide!, findMarkers_qstar_maxTP refParams (sample refParams) (by decide!)⟩

theorem mem_insertAsc {a x : ℚ} : ∀ {l : List ℚ}, a ∈ insertAsc x l → a = x ∨ a ∈ l := by
  intro l
  induction l with
  | nil => intro h; simp only [insertAsc, List.mem_singleton] at h; exact Or.inl h
  | cons y ys ih =>
    intro h
    simp only [insertAsc] at h
    split_ifs at h
    · rcases List.mem_cons.mp h with rfl | h
      · exact Or.inl rfl
      · exact Or.inr h
    · rcases List.mem_cons.mp h with rfl | h
      · exact Or.inr (List.mem_cons_self _ _)
      · rcases ih h with rfl | h
        · exact Or.inl rfl
        · exact Or.inr (List.mem_cons_of_mem _ h)

theorem mem_sortList {a : ℚ} : ∀ {l : List ℚ}, a ∈ sortList l → a ∈ l := by
  intro l
  induction l with
  | nil => intro h; simpa [sortList] using h
  | cons x xs ih =>
    intro h
    simp only [sortList] at h
    rcases mem_insertAsc h with rfl | h
    · exact List.mem_cons_self _ _
    · exact List.mem_cons_of_mem _ (ih h)

theorem mem_dedupGo {a : ℚ} : ∀ {l : List ℚ} {prev : ℚ}, a ∈ dedupGo prev l → a ∈ l := by
  intro l
  induction l with
  | nil => intro prev h; simp [dedupGo] at h
  | cons y ys ih =>
    intro prev h
    simp only [dedupGo] at h
    split_ifs at h
    · rcases List.mem_cons.mp h with rfl | h
      · exact List.mem_cons_self _ _
      · exact List.mem_cons_of_mem _ (ih h)
    · exact List.mem_cons_of_mem _ (ih h)

theorem mem_dedupFilter {a : ℚ} : ∀ {l : List ℚ}, a ∈ dedupFilter l → a ∈ l := by
  intro l
  cases l with
  | nil => intro h; simp [dedupFilter] at h
  | cons x xs =>
    intro h
    simp only [dedupFilter] at h
    rcases List.mem_cons.mp h with rfl | h
    · exact List.mem_cons_self _ _
    · exact List.mem_cons_of_mem _ (mem_dedupGo h)

/-- The bisection bracket never leaves an interval containing both initial
endpoints. -/
theorem bisect_mem_Icc (P : Params) :
    ∀ (k : Nat) (lo hi pTP A B : ℚ), A ≤ lo → lo ≤ B → A ≤ hi → hi ≤ B →
      A ≤ (bisect P k lo hi pTP).1 ∧ (bisect P k lo hi pTP).1 ≤ B ∧
      A ≤ (bisect P k lo hi pTP).2 ∧ (bisect P k lo hi pTP).2 ≤ B := by
  intro k
  induction k with
  | zero => intro lo hi pTP A B h1 h2 h3 h4; exact ⟨h1, h2, h3, h4⟩
  | succ k ih =>
    intro lo hi pTP A B h1 h2 h3 h4
    have hmid1 : A ≤ (lo + hi) / 2 := by linarith
    have hmid2 : (lo + hi) / 2 ≤ B := by linarith
    simp only [bisect]
    split_ifs
    · exact ih lo ((lo + hi) / 2) pTP A B h1 h2 hmid1 hmid2
    · exact ih ((lo + hi) / 2) hi (tpAt P ((lo + hi) / 2)) A B hmid1 hmid2 h3 h4

/-- Every root recorded by the scan loop lies in [0, 10], provided the
previous grid point, the accumulator and all remaining (rounded) grid
points do. -/
theorem rootScanGo_bounds (P : Params) :
    ∀ (qs : List ℚ) (prevQ prevTP : ℚ) (acc : List ℚ),
      0 ≤ prevQ → prevQ ≤ 10 →
      (∀ q ∈ qs, 0 ≤ roundTo 4 q ∧ roundTo 4 q ≤ 10) →
      (∀ r ∈ acc, 0 ≤ r ∧ r ≤ 10) →
      ∀ r ∈ rootScanGo P qs prevQ prevTP acc, 0 ≤ r ∧ r ≤ 10 := by
  intro qs
  induction qs with
  | nil => intro prevQ prevTP acc _ _ _ hacc r hr; exact hacc r hr
  | cons q qs ih =>
    intro prevQ prevTP acc h1 h2 hqs hacc r hr
    have hq := hqs q (List.mem_cons_self _ _)
    have hqs2 : ∀ x ∈ qs, 0 ≤ roundTo 4 x ∧ roundTo 4 x ≤ 10 :=
      fun x hx => hqs x (List.mem_cons_of_mem _ hx)
    simp only [rootScanGo] at hr
    refine ih (roundTo 4 q) (tpAt P (roundTo 4 q)) _ hq.1 hq.2 hqs2 ?_ r hr
    split_ifs
    · intro x hx
      rcases List.mem_append.mp hx with hx | hx
      · exact hacc x hx
      · rcases List.mem_singleton.mp hx with rfl
        exact ⟨h1, h2⟩
    · intro x hx
      rcases List.mem_append.mp hx with hx | hx
      · exact hacc x hx
      · rcases List.mem_singleton.mp hx with rfl
        exact hq
    · intro x hx
      rcases List.mem_append.mp hx with hx | hx
      · exact hacc x hx
      · rcases List.mem_singleton.mp hx with rfl
        obtain ⟨b1, b2, b3, b4⟩ :=
          bisect_mem_Icc P 30 prevQ (roundTo 4 q) prevTP 0 10 h1 h2 hq.1 hq.2
        constructor <;> linarith
    · exact hacc

theorem roots_bounds (P : Params) : ∀ r ∈ roots P, 0 ≤ r ∧ r ≤ 10 := by
  have hgrid : ∀ q ∈ scanGrid, 0 ≤ roundTo 4 q ∧ roundTo 4 q ≤ 10 := by decide!
  exact rootScanGo_bounds P scanGrid 0 (tpAt P 0) [] (le_refl 0) (by norm_num) hgrid (by simp)

theorem uniqueRoots_bounds (P : Params) : ∀ r ∈ uniqueRoots P, 0 ≤ r ∧ r ≤ 10 := by
  intro r hr
  simp only [uniqueRoots] at hr
  exact roots_bounds P r (mem_sortList (mem_dedupFilter hr))

theorem sample_Q_bounds (P : Params) : ∀ s ∈ sample P, 0 ≤ s.Q ∧ s.Q ≤ 10 := by
  intro s hs
  simp only [sample, List.mem_map] at hs
  obtain ⟨q, hq, rfl⟩ := hs
  have hgrid : ∀ x ∈ gridLoop (1 / 10) 10 200 0, 0 ≤ roundTo 3 x ∧ roundTo 3 x ≤ 10 := by
    decide!
  exact hgrid q hq

/-- C10: on its actual input Series `sample P`, findMarkers always returns
a defined (finite) Qstar and maxTP; only breakEven and profitLimit can be
undefined; Qstar and a defined breakEven lie in the sampling domain
[0, Qmax] = [0, 10]; and when profitLimit is defined, breakEven is defined
too and is strictly smaller. -/
theorem findMarkers_invariants (P : Params) :
    (findMarkers P (sample P)).maxTP.isSome = true ∧
    0 ≤ (findMarkers P (sample P)).Qstar ∧ (findMarkers P (sample P)).Qstar ≤ 10 ∧
    0 ≤ (findMarkers P (sample P)).breakEven.getD 0 ∧
    (findMarkers P (sample P)).breakEven.getD 0 ≤ 10 ∧
    ((findMarkers P (sample P)).profitLimit.isSome = true →
      (findMarkers P (sample P)).breakEven.isSome = true ∧
      (findMarkers P (sample P)).breakEven.getD 0 <
        (findMarkers P (sample P)).profitLimit.getD 0) := by
  have hne : sample P ≠ [] := by
    intro h
    have hlen : (sample P).length = 101 := by
      simp only [sample, List.length_map]
      decide!
    rw [h] at hlen
    simp at hlen
  obtain ⟨pre, best, post, hsplit, hmax, hqs, hall, hpre⟩ :=
    findMarkers_first_argmax P (sample P) hne
  have hbest : best ∈ sample P := by
    rw [hsplit]
    exact List.mem_append_right _ (List.mem_cons_self _ _)
  have hbestQ := sample_Q_bounds P best hbest
  have hbeDef : (findMarkers P (sample P)).breakEven = (uniqueRoots P).head? := rfl
  have hplDef : (findMarkers P (sample P)).profitLimit =
      (match uniqueRoots P with
        | r0 :: r1 :: _ => if 1 ≤ r1 - r0 then some r1 else none
        | _ => none) := rfl
  refine ⟨by rw [hmax]; rfl, by rw [hqs]; exact hbestQ.1, by rw [hqs]; exact hbestQ.2, ?_, ?_, ?_⟩
  · rcases hBE : (findMarkers P (sample P)).breakEven with _ | r
    · simp
    · rw [hbeDef] at hBE
      have hr : r ∈ uniqueRoots P := List.mem_of_mem_head? (Option.mem_def.mpr hBE)
      simpa using (uniqueRoots_bounds P r hr).1
  · rcases hBE : (findMarkers P (sample P)).breakEven with _ | r
    · simp
    · rw [hbeDef] at hBE
      have hr : r ∈ uniqueRoots P := List.mem_of_mem_head? (Option.mem_def.mpr hBE)
      simpa using (uniqueRoots_bounds P r hr).2
  · intro hPL
    rcases hu : uniqueRoots P with _ | ⟨r0, _ | ⟨r1, rest⟩⟩
    · rw [hplDef, hu] at hPL
      simp at hPL
    · rw [hplDef, hu] at hPL
      simp at hPL
    · by_cases hgap : 1 ≤ r1 - r0
      · rw [hbeDef, hu]
        rw [hplDef, hu]
        simp only [List.head?_cons, Option.isSome_some, Option.getD_some, if_pos hgap]
        exact ⟨trivial, by linarith⟩
      · rw [hplDef, hu] at hPL
        simp [hgap] at hPL

/-- Witness for C10 at the reference parameters (profitLimit defined). -/
theorem findMarkers_invariants_witness :
    (findMarkers refParams (sample refParams)).profitLimit.isSome = true ∧
    ((findMarkers refParams (sample refParams)).breakEven.isSome = true ∧
      (findMarkers refParams (sample refParams)).breakEven.getD 0 <
        (findMarkers refParams (sample refParams)).profitLimit.getD 0) :=
  ⟨by decide!, (findMarkers_invariants refParams).2.2.2.2.2 (by decide!)⟩

/-- C5: at the reference defaults FC=5, a=5, b=1, c=0.1, p=5 the engine
reports Qstar = 6.7 with TP(Qstar) strictly greater than TP(Qstar ± 0.5),
and a defined breakEven whose TP is within 0.01 of zero. -/
theorem refParams_marker_sanity :
    (findMarkers refParams (sample refParams)).Qstar = 67 / 10 ∧
    tpAt refParams (67 / 10 - 1 / 2) < tpAt refParams (67 / 10) ∧
    tpAt refParams (67 / 10 + 1 / 2) < tpAt refParams (67 / 10) ∧
    (findMarkers refParams (sample refParams)).breakEven.isSome = true ∧
    |tpAt refParams ((findMarkers refParams (sample refParams)).breakEven.getD 0)| ≤ 1 / 100 := by
  refine ⟨by decide!, by decide!, by decide!, by decide!, by decide!⟩

/-- C3: profitLimit is `some x` exactly when the deduplicated root list has
at least two entries whose second entry r1 is at least 1 unit beyond the
first, and then x is that second entry (no later root is considered);
whenever any root exists, breakEven is the first one; with zero roots both
markers are undefined. -/
theorem profitLimit_policy (P : Params) (data : List Sample) :
    (∀ x : ℚ, (findMarkers P data).profitLimit = some x ↔
      ∃ r0 r1 rest, uniqueRoots P = r0 :: r1 :: rest ∧ 1 ≤ r1 - r0 ∧ x = r1) ∧
    (∀ r0 rest, uniqueRoots P = r0 :: rest → (findMarkers P data).breakEven = some r0) ∧
    (uniqueRoots P = [] →
      (findMarkers P data).breakEven = none ∧ (findMarkers P data).profitLimit = none) := by
  have hbeDef : (findMarkers P data).breakEven = (uniqueRoots P).head? := rfl
  have hplDef : (findMarkers P data).profitLimit =
      (match uniqueRoots P with
        | r0 :: r1 :: _ => if 1 ≤ r1 - r0 then some r1 else none
        | _ => none) := rfl
  refine ⟨?_, ?_, ?_⟩
  · intro x
    rcases hu : uniqueRoots P with _ | ⟨r0, _ | ⟨r1, rest⟩⟩
    · rw [hplDef, hu]
      simp [hu]
    · rw [hplDef, hu]
      simp [hu]
    · rw [hplDef, hu]
      by_cases hgap : 1 ≤ r1 - r0
      · simp only [if_pos hgap, hu]
        constructor
        · intro hx
          exact ⟨r0, r1, rest, rfl, hgap, (Option.some.inj hx).symm⟩
        · rintro ⟨a, b, l, heq, hab, rfl⟩
          simp only [List.cons.injEq] at heq
          rw [heq.2.1]
      · simp only [if_neg hgap, hu]
        constructor
        · intro hx
          exact absurd hx (by simp)
        · rintro ⟨a, b, l, heq, hab, rfl⟩
          simp only [List.cons.injEq] at heq
          obtain ⟨h0, h1, _⟩ := heq
          rw [← h0, ← h1] at hab
          exact absurd hab hgap
  · intro r0 rest hu
    rw [hbeDef, hu]
    rfl
  · intro hu
    exact ⟨by rw [hbeDef, hu]; rfl, by rw [hplDef, hu]⟩

/-- Witness for C3 at parameters whose profit is constantly -5 (no roots). -/
theorem profitLimit_policy_witness :
    uniqueRoots noRootParams = [] ∧
    ((findMarkers noRootParams []).breakEven = none ∧
      (findMarkers noRootParams []).profitLimit = none) :=
  ⟨by decide!, (profitLimit_policy noRootParams []).2.2 (by decide!)⟩

/-- C8: whenever the fine scan meets a strict sign change
tpAt(lo)·tpAt(hi) < 0 on a bracket of width 0.01, the value the scan
records (the midpoint of the bracket returned by the 30-iteration
bisection — see the sign-change branch of `rootScanGo`) stays inside
[lo, hi], and the real profit curve has a true zero z in [lo, hi], so the
recorded root is within 0.01 of z. -/
theorem bisect_root_accuracy (P : Params) (lo hi : ℚ)
    (h1 : lo < hi) (h2 : hi - lo = 1 / 100) (h3 : tpAt P lo * tpAt P hi < 0) :
    lo ≤ ((bisect P 30 lo hi (tpAt P lo)).1 + (bisect P 30 lo hi (tpAt P lo)).2) / 2 ∧
    ((bisect P 30 lo hi (tpAt P lo)).1 + (bisect P 30 lo hi (tpAt P lo)).2) / 2 ≤ hi ∧
    ∃ z : ℝ, (lo : ℝ) ≤ z ∧ z ≤ (hi : ℝ) ∧
      (P.p : ℝ) * z - ((P.FC : ℝ) + (P.a : ℝ) * z - (P.b : ℝ) * z * z +
        (P.c : ℝ) * z * z * z) = 0 ∧
      |((((bisect P 30 lo hi (tpAt P lo)).1 + (bisect P 30 lo hi (tpAt P lo)).2) / 2 : ℚ) : ℝ)
        - z| ≤ 1 / 100 := by
  obtain ⟨b1, b2, b3, b4⟩ :=
    bisect_mem_Icc P 30 lo hi (tpAt P lo) lo hi (le_refl lo) h1.le h1.le (le_refl hi)
  have hr1 : lo ≤ ((bisect P 30 lo hi (tpAt P lo)).1 + (bisect P 30 lo hi (tpAt P lo)).2) / 2 := by
    linarith
  have hr2 : ((bisect P 30 lo hi (tpAt P lo)).1 + (bisect P 30 lo hi (tpAt P lo)).2) / 2 ≤ hi := by
    linarith
  refine ⟨hr1, hr2, ?_⟩
  have hcont : Continuous (fun z : ℝ => (P.p : ℝ) * z - ((P.FC : ℝ) + (P.a : ℝ) * z -
      (P.b : ℝ) * z * z + (P.c : ℝ) * z * z * z)) := by
    fun_prop
  have hcast : ∀ q : ℚ, ((tpAt P q : ℚ) : ℝ) = (P.p : ℝ) * (q : ℝ) - ((P.FC : ℝ) +
      (P.a : ℝ) * (q : ℝ) - (P.b : ℝ) * (q : ℝ) * (q : ℝ) +
      (P.c : ℝ) * (q : ℝ) * (q : ℝ) * (q : ℝ)) := by
    intro q
    simp only [tpAt]
    push_cast
    ring
  have hab : (lo : ℝ) ≤ (hi : ℝ) := by exact_mod_cast h1.le
  have hwidth : (hi : ℝ) - (lo : ℝ) = 1 / 100 := by
    have h2r := congrArg (fun x : ℚ => (x : ℝ)) h2
    push_cast at h2r
    linarith
  have habs : ∀ z : ℝ, (lo : ℝ) ≤ z → z ≤ (hi : ℝ) →
      |((((bisect P 30 lo hi (tpAt P lo)).1 + (bisect P 30 lo hi (tpAt P lo)).2) / 2 : ℚ) : ℝ)
        - z| ≤ 1 / 100 := by
    intro z hz1 hz2
    have hrr1 : ((lo : ℚ) : ℝ) ≤
        ((((bisect P 30 lo hi (tpAt P lo)).1 + (bisect P 30 lo hi (tpAt P lo)).2) / 2 : ℚ) : ℝ) := by
      exact_mod_cast hr1
    have hrr2 : ((((bisect P 30 lo hi (tpAt P lo)).1 +
        (bisect P 30 lo hi (tpAt P lo)).2) / 2 : ℚ) : ℝ) ≤ ((hi : ℚ) : ℝ) := by
      exact_mod_cast hr2
    rw [abs_le]
    constructor <;> linarith
  rcases mul_neg_iff.mp h3 with ⟨hpos, hneg⟩ | ⟨hneg, hpos⟩
  · have h0mem : (0 : ℝ) ∈ Set.Icc (((tpAt P hi : ℚ) : ℝ)) (((tpAt P lo : ℚ) : ℝ)) := by
      constructor
      · exact_mod_cast hneg.le
      · exact_mod_cast hpos.le
    rw [hcast lo, hcast hi] at h0mem
    obtain ⟨z, hzmem, hfz⟩ := intermediate_value_Icc' hab hcont.continuousOn h0mem
    exact ⟨z, hzmem.1, hzmem.2, hfz, habs z hzmem.1 hzmem.2⟩
  · have h0mem : (0 : ℝ) ∈ Set.Icc (((tpAt P lo : ℚ) : ℝ)) (((tpAt P hi : ℚ) : ℝ)) := by
      constructor
      · exact_mod_cast hneg.le
      · exact_mod_cast hpos.le
    rw [hcast lo, hcast hi] at h0mem
    obtain ⟨z, hzmem, hfz⟩ := intermediate_value_Icc hab hcont.continuousOn h0mem
    exact ⟨z, hzmem.1, hzmem.2, hfz, habs z hzmem.1 hzmem.2⟩

/-- Witness for C8 on the reference parameters' sign change over
[2.59, 2.60]. -/
theorem bisect_root_accuracy_witness :
    (259 / 100 : ℚ) < 13 / 5 ∧
    (13 / 5 : ℚ) - 259 / 100 = 1 / 100 ∧
    tpAt refParams (259 / 100) * tpAt refParams (13 / 5) < 0 ∧
    259 / 100 ≤ ((bisect refParams 30 (259 / 100) (13 / 5) (tpAt refParams (259 / 100))).1 +
      (bisect refParams 30 (259 / 100) (13 / 5) (tpAt refParams (259 / 100))).2) / 2 :=
  ⟨by decide!, by decide!, by decide!,
    (bisect_root_accuracy refParams (259 / 100) (13 / 5)
      (by decide!) (by decide!) (by decide!)).1⟩
